import Mathlib

/-
Verification of the max-prod repository (src/main.rs) against its
natural-language specification.

Shallow embedding conventions:
- Sequences are Lean lists; Rust slice indexing arr[k] (always in bounds in
  the source) is embedded as arr.getD k 0.
- The generic unsigned-integer element type of the integer path is modelled
  with exact (arbitrary-precision) arithmetic; theorems instantiate it at ℕ.
  Fixed-width wraparound is out of scope (spec section 7 declares overflow
  behaviour implementation-defined and unguarded).
- The generic real element type of the real path is modelled exactly;
  theorems instantiate it at ℚ.
- usize subtraction in compress_dual (the only place it can underflow) is
  modelled with 64-bit wrapping semantics (release-mode Rust): wsub1.
- Rust while loops are embedded as fuel recursion, with fuel at least the
  number of remaining iterations (leadScan is called with fuel arr.length
  and advances start each step; reduceLoop shrinks the stack by two per
  step and is called with the stack length as fuel).
- Vec::push appends at the end; Vec::pop takes the last element, so the
  reduction stack is represented reversed (head = last pushed).
-/

/-- 64-bit wrapping predecessor: release-mode semantics of the Rust
expression i - 1 at usize, which wraps to 2^64 - 1 when i = 0. -/
def wsub1 (i : ℕ) : ℕ := if i = 0 then 2 ^ 64 - 1 else i - 1

section Sources

variable {T : Type} [Zero T] [One T] [Mul T] [LinearOrder T]

/-- Embedding of max_prod_brute_force (src/main.rs lines 12-34): cubic
triple loop, state (max_prod, max), strict comparison prod > max_prod. -/
def max_prod_brute_force (arr : List T) : ℕ × ℕ :=
  let n := arr.length
  ((List.range n).foldl (fun st i =>
    (List.range' i (n - i)).foldl (fun st j =>
      let prod := (List.range' i (j + 1 - i)).foldl (fun p k => p * arr.getD k 0) 1
      if st.1 < prod then (prod, (i, j)) else st) st)
    ((0 : T), ((0 : ℕ), (0 : ℕ)))).2

/-- Embedding of max_prod_brute_force_improved (src/main.rs lines 36-55):
quadratic loop with the running product carried across the inner loop. -/
def max_prod_brute_force_improved (arr : List T) : ℕ × ℕ :=
  let n := arr.length
  ((List.range n).foldl (fun st i =>
    ((List.range' i (n - i)).foldl (fun sp j =>
      let prod := sp.2 * arr.getD j 0
      (if sp.1.1 < prod then (prod, (i, j)) else sp.1, prod)) (st, (1 : T))).1)
    ((0 : T), ((0 : ℕ), (0 : ℕ)))).2

/-- One iteration of the scan loop of max_prod_fast_int (src/main.rs lines
65-82).  State: ((max_prod, max), (current, current_prod)). -/
def fastIntStep (arr : List T) (st : (T × (ℕ × ℕ)) × ((ℕ × ℕ) × T)) (i : ℕ) :
    (T × (ℕ × ℕ)) × ((ℕ × ℕ) × T) :=
  let cur := st.2.1
  let cp := st.2.2
  let cc : (ℕ × ℕ) × T :=
    if arr.getD i 0 ≠ 0 then
      let cp2 := if cp = 0 then (1 : T) else cp
      let cs := if cp = 0 then i else cur.1
      ((cs, i), cp2 * arr.getD i 0)
    else ((i, i), 0)
  let mx := if st.1.1 < cc.2 then (cc.2, cc.1) else st.1
  (mx, cc)

/-- Embedding of max_prod_fast_int (src/main.rs lines 57-86). -/
def max_prod_fast_int (arr : List T) : ℕ × ℕ :=
  ((List.range arr.length).foldl (fastIntStep arr)
    (((0 : T), ((0 : ℕ), (0 : ℕ))), (((0 : ℕ), (0 : ℕ)), (0 : T)))).1.2

/-- The leading while loop of compress_dual (src/main.rs lines 98-105): skip
elements strictly below one, tracking the largest such element (strict >
update) and its index.  Called with fuel arr.length, which bounds the number
of iterations since start increases and the loop stops at arr.length. -/
def leadScan (arr : List T) : ℕ → ℕ → T → ℕ → ℕ × T × ℕ
  | 0, start, tm, ti => (start, tm, ti)
  | fuel + 1, start, tm, ti =>
    if start < arr.length ∧ arr.getD start 0 < 1 then
      if tm < arr.getD start 0 then leadScan arr fuel (start + 1) (arr.getD start 0) start
      else leadScan arr fuel (start + 1) tm ti
    else (start, tm, ti)

/-- One iteration of the main classification loop of compress_dual
(src/main.rs lines 113-133).  State: (compressed, smaller, tmp_prod, start). -/
def compressStep (arr : List T) (st : List (T × ℕ × ℕ) × Bool × T × ℕ) (i : ℕ) :
    List (T × ℕ × ℕ) × Bool × T × ℕ :=
  let (compressed, smaller, tmp_prod, start) := st
  if smaller then
    if arr.getD i 0 < 1 then (compressed, smaller, tmp_prod * arr.getD i 0, start)
    else (compressed ++ [(tmp_prod, start, wsub1 i)], false, arr.getD i 0, i)
  else
    if 1 < arr.getD i 0 then (compressed, smaller, tmp_prod * arr.getD i 0, start)
    else (compressed ++ [(tmp_prod, start, wsub1 i)], true, arr.getD i 0, i)

/-- Embedding of compress_dual (src/main.rs lines 88-142). -/
def compress_dual (arr : List T) : List (T × ℕ × ℕ) :=
  let n := arr.length
  let s := leadScan arr n 0 0 0
  if s.1 = n then [(s.2.1, s.2.2, s.2.2)]
  else
    let smaller := arr.getD s.1 0 < 1
    let fin := (List.range' s.1 (n - s.1)).foldl (compressStep arr) ([], smaller, 1, s.1)
    if 1 < fin.2.2.1 then fin.1 ++ [(fin.2.2.1, fin.2.2.2, n - 1)] else fin.1

/-- The reduction while loop of max_prod_fast_real (src/main.rs lines
149-178).  The stack is reversed (head = top): a is popped first, then b,
then c; the conditional push and the three candidate-maximum updates follow
the source order.  Each iteration removes two elements, so fuel = initial
stack length suffices. -/
def reduceLoop : ℕ → List (T × ℕ × ℕ) → T × ℕ × ℕ → ℕ × ℕ
  | 0, _, cm => (cm.2.1, cm.2.2)
  | fuel + 1, stk, cm =>
    match stk with
    | a :: b :: c :: rest =>
      let combined : T × ℕ × ℕ := (a.1 * b.1 * c.1, c.2.1, a.2.2)
      let rest2 := if c.1 < combined.1 then combined :: rest else c :: rest
      let cm1 := if cm.1 < combined.1 then combined else cm
      let cm2 := if cm1.1 < a.1 then a else cm1
      let cm3 := if cm2.1 < c.1 then c else cm2
      reduceLoop fuel rest2 cm3
    | _ => (cm.2.1, cm.2.2)

/-- Embedding of max_prod_fast_real (src/main.rs lines 144-183).
compressed[0] is embedded as headD; compress_dual never returns an empty
list (see the C7 development), so the default is never taken. -/
def max_prod_fast_real (arr : List T) : ℕ × ℕ :=
  let compressed := compress_dual arr
  reduceLoop compressed.length compressed.reverse (compressed.headD (0, 0, 0))

end Sources

/-- Product of the elements of arr at indices i through j inclusive
(the mathematical reading of the repository helper prod, src/main.rs
lines 185-192). -/
def prodSeg {T : Type} [Mul T] [One T] (arr : List T) (i j : ℕ) : T :=
  ((arr.drop i).take (j + 1 - i)).prod

/-- A compressed run is well formed for arr when its span is a valid
inclusive index range and its stored product is the exact product of its
constituent elements. -/
def RunExact (arr : List ℚ) (r : ℚ × ℕ × ℕ) : Prop :=
  r.2.1 ≤ r.2.2 ∧ r.2.2 < arr.length ∧ r.1 = prodSeg arr r.2.1 r.2.2

/-- A run is category-uniform for arr when its elements are all strictly
below one, or all at-or-above one. -/
def runUniform (arr : List ℚ) (r : ℚ × ℕ × ℕ) : Prop :=
  (∀ k, r.2.1 ≤ k → k ≤ r.2.2 → arr.getD k 0 < 1) ∨
  (∀ k, r.2.1 ≤ k → k ≤ r.2.2 → 1 ≤ arr.getD k 0)

/-- One strict-comparison update of a running maximum: the candidate c
replaces the state exactly when its value strictly exceeds the state's. -/
def bestStep (st c : ℕ × (ℕ × ℕ)) : ℕ × (ℕ × ℕ) :=
  if st.1 < c.1 then c else st

/-- The running-maximum fold shared by all the scanning algorithms: state
(max_prod, max), updated when a candidate value strictly exceeds max_prod,
starting from the additive identity and the range (0, 0). -/
def best (l : List (ℕ × (ℕ × ℕ))) : ℕ × (ℕ × ℕ) :=
  l.foldl bestStep (0, (0, 0))

/-- All pairs (i, j) with i ≤ j < n, in the lexicographic order in which
the brute-force double loop enumerates them. -/
def pairsLex (n : ℕ) : List (ℕ × ℕ) :=
  (List.range n).flatMap fun i => (List.range' i (n - i)).map fun j => (i, j)

/-- A brute-force candidate: the pair (i, j) tagged with the product of
arr[i..=j]. -/
def candVal (arr : List ℕ) (p : ℕ × ℕ) : ℕ × (ℕ × ℕ) :=
  (prodSeg arr p.1 p.2, p)

/-- The candidate sequence inspected by both brute-force oracles. -/
def bruteCands (arr : List ℕ) : List (ℕ × (ℕ × ℕ)) :=
  (pairsLex arr.length).map (candVal arr)

/-- Start of the zero-free run of arr ending at position i: the least s
such that arr[s..=i-1] contains no zero (i itself not inspected). -/
def runStart (arr : List ℕ) : ℕ → ℕ
  | 0 => 0
  | i + 1 => if arr.getD i 0 = 0 then i + 1 else runStart arr i

/-- The candidate produced at position i of the zero-segmented scan: on a
zero element the single-point range (i, i) with product zero, otherwise the
zero-free run ending at i with its product. -/
def fastCand (arr : List ℕ) (i : ℕ) : ℕ × (ℕ × ℕ) :=
  if arr.getD i 0 = 0 then (0, (i, i))
  else (prodSeg arr (runStart arr i) i, (runStart arr i, i))

/-- The candidate sequence inspected by the zero-segmented scan. -/
def fastCands (arr : List ℕ) : List (ℕ × (ℕ × ℕ)) :=
  (List.range arr.length).map (fastCand arr)

/-- The full state of the zero-segmented scan after processing the first m
elements of arr. -/
def fastIntScan (arr : List ℕ) (m : ℕ) : (ℕ × (ℕ × ℕ)) × ((ℕ × ℕ) × ℕ) :=
  (List.range m).foldl (fastIntStep arr) ((0, (0, 0)), ((0, 0), 0))

/-- Closed form of the (current, current_prod) half of the scan state after
the first m elements: initially ((0,0), 0); after a zero at m-1 the
single-point range with product zero; otherwise the zero-free run ending at
m-1 with its exact product. -/
def scanPair (arr : List ℕ) (m : ℕ) : (ℕ × ℕ) × ℕ :=
  if m = 0 then ((0, 0), 0)
  else if arr.getD (m - 1) 0 = 0 then ((m - 1, m - 1), 0)
  else ((runStart arr (m - 1), m - 1), prodSeg arr (runStart arr (m - 1)) (m - 1))

set_option maxRecDepth 8000

/-- C10: on the empty input neither entry point fails: the integer scanner
returns (0, 0) (its loop body never runs), compress_dual returns the single
synthetic run (0, 0, 0) through its degenerate branch, and the real entry
point therefore returns (0, 0). -/
theorem C10_empty_input_defined :
    max_prod_fast_int ([] : List ℕ) = (0, 0) ∧
    compress_dual ([] : List ℚ) = [(0, 0, 0)] ∧
    max_prod_fast_real ([] : List ℚ) = (0, 0) := by
  refine ⟨by decide, by decide, by decide⟩

/-- C3 counterexample: the claim says both entry points fail (panic) on the
empty sequence; in fact both return normally with (0, 0) (no assertion is
violated and no out-of-bounds access or overflowing subtraction occurs on
this path). -/
theorem C3_counterexample :
    max_prod_fast_int ([] : List ℕ) = (0, 0) ∧
    max_prod_fast_real ([] : List ℚ) = (0, 0) := by
  refine ⟨by decide, by decide⟩

/-- C3 amended: neither entry point fails on the empty sequence; the integer
scanner returns its initial candidate (0, 0), and the real path returns
(0, 0) via the degenerate branch of compress_dual, whose returned list is
the singleton (0, 0, 0) — note both results are out-of-range index pairs
for an empty sequence, but no failure occurs. -/
theorem C3_amended_no_failure :
    max_prod_fast_int ([] : List ℕ) = (0, 0) ∧
    max_prod_brute_force ([] : List ℕ) = (0, 0) ∧
    max_prod_brute_force_improved ([] : List ℕ) = (0, 0) ∧
    compress_dual ([] : List ℚ) ≠ [] ∧
    max_prod_fast_real ([] : List ℚ) = (0, 0) := by
  refine ⟨by decide, by decide, by decide, by decide, by decide⟩

/-- C4, failing input [1.0]: compress_dual closes its first run with the
computation i - 1 at i = 0 (the first element is at-or-above one but not
strictly above one), which underflows usize: in release mode it wraps to
2^64 - 1, producing a run whose end index is out of range (in debug mode
this subtraction panics).  This refutes the claimed invariant that i - 1
never underflows and that returned ranges are always valid. -/
theorem C4_underflow_at_one :
    compress_dual ([1] : List ℚ) = [(1, 0, 2 ^ 64 - 1)] ∧
    max_prod_fast_real ([1] : List ℚ) = (0, 2 ^ 64 - 1) ∧
    ¬ (2 ^ 64 - 1 : ℕ) < ([1] : List ℚ).length := by
  refine ⟨by decide, by decide, by decide⟩

/-- C2, failing inputs: on [1.0] the real fast path underflows (wrapping to
the invalid range (0, 2^64 - 1); a debug build panics) while the quadratic
oracle returns (0, 0); and on the tie input [2, 1/2, 3, 1/3, 2] — where the
subranges 0..=2 and 2..=2 both attain the maximal product 3 — the fast path
returns (2, 2) but the oracle returns the first such range (0, 2).  Both
refute the claimed index-range equivalence. -/
theorem C2_fast_real_diverges_from_oracle :
    max_prod_fast_real ([1] : List ℚ) ≠ max_prod_brute_force_improved ([1] : List ℚ) ∧
    max_prod_fast_real ([2, 1/2, 3, 1/3, 2] : List ℚ) = (2, 2) ∧
    max_prod_brute_force_improved ([2, 1/2, 3, 1/3, 2] : List ℚ) = (0, 2) := by
  refine ⟨?_, ?_, ?_⟩
  · intro h
    rw [show max_prod_fast_real ([1] : List ℚ) = (0, 2 ^ 64 - 1) by decide,
      show max_prod_brute_force_improved ([1] : List ℚ) = (0, 0) by
        norm_num [max_prod_brute_force_improved, List.range', List.range_succ,
          List.range_zero]] at h
    simp at h
  · norm_num [max_prod_fast_real, compress_dual, leadScan, compressStep, reduceLoop, wsub1,
      List.range']
  · norm_num [max_prod_brute_force_improved, List.range', List.range_succ, List.range_zero]

/-- C6, failing input [2, 1, 1/2, 3]: the element 1 (at-or-above one) is
absorbed into the below-one run (1/2, 1, 2) — after the above-mode run
(2, 0, 0) is closed by the non-strictly-greater element 1, that element
seeds the next run, which then absorbs 1/2; so not every run is
category-uniform, refuting the claim. -/
theorem C6_run_not_uniform :
    compress_dual ([2, 1, 1/2, 3] : List ℚ) = [(2, 0, 0), (1/2, 1, 2), (3, 3, 3)] ∧
    ¬ ∀ r ∈ compress_dual ([2, 1, 1/2, 3] : List ℚ), runUniform [2, 1, 1/2, 3] r := by
  have hc : compress_dual ([2, 1, 1/2, 3] : List ℚ) = [(2, 0, 0), (1/2, 1, 2), (3, 3, 3)] := by
    norm_num [compress_dual, leadScan, compressStep, wsub1, List.range']
  refine ⟨hc, ?_⟩
  intro h
  have hr := h (1/2, 1, 2) (by rw [hc]; simp)
  rcases hr with hb | ha
  · have := hb 1 (by norm_num) (by norm_num)
    norm_num at this
  · have := ha 2 (by norm_num) (by norm_num)
    norm_num at this

/-- C5 counterexample: the claim says every single-element input yields
(0, 0) for every algorithm, but max_prod_fast_real on [1.0] does not (it
underflows: wrapping yields (0, 2^64 - 1); a debug build panics). -/
theorem C5_counterexample : max_prod_fast_real ([1] : List ℚ) ≠ (0, 0) := by
  intro h
  rw [show max_prod_fast_real ([1] : List ℚ) = (0, 2 ^ 64 - 1) by decide] at h
  simp at h

/-- C7 counterexample: on [1.0] the compress_dual output is the single run
(1, 0, 2^64 - 1), whose span is not a valid index range of the input (its
end exceeds the length), so not every returned run is the exact product of
constituent elements at valid indices. -/
theorem C7_counterexample :
    ¬ (compress_dual ([1] : List ℚ) ≠ [] ∧
       ∀ r ∈ compress_dual ([1] : List ℚ), RunExact [1] r) := by
  rintro ⟨-, h⟩
  have hr := h (1, 0, 2 ^ 64 - 1) (by rw [show compress_dual ([1] : List ℚ) = [(1, 0, 2 ^ 64 - 1)] by decide]; simp)
  have := hr.2.1
  revert this
  decide

/-- C5 amended: every algorithm returns (0, 0) on every single-element
input — every integer singleton for all three integer-path algorithms, and
every real singleton (including [1.0]) for the two oracles; for
max_prod_fast_real the element must differ from one (on [1.0] the
run-closing subtraction underflows, see the C5 counterexample). -/
theorem C5_singleton (k : ℕ) (x : ℚ) :
    max_prod_fast_int [k] = (0, 0) ∧
    max_prod_brute_force [k] = (0, 0) ∧
    max_prod_brute_force_improved [k] = (0, 0) ∧
    max_prod_brute_force [x] = (0, 0) ∧
    max_prod_brute_force_improved [x] = (0, 0) ∧
    (x ≠ 1 → max_prod_fast_real [x] = (0, 0)) := by
  refine ⟨?_, ?_, ?_, ?_, ?_, fun hx => ?_⟩
  · simp [max_prod_fast_int, fastIntStep, List.range_succ, apply_ite Prod.snd]
    split <;> simp [apply_ite Prod.snd]
  · simp [max_prod_brute_force, List.range_succ, List.range']
    split <;> simp
  · simp [max_prod_brute_force_improved, List.range_succ, List.range']
    split <;> simp
  · simp [max_prod_brute_force, List.range_succ, List.range']
    split <;> simp
  · simp [max_prod_brute_force_improved, List.range_succ, List.range']
    split <;> simp
  · rcases hx.lt_or_lt with h | h
    · rcases lt_or_le 0 x with h0 | h0 <;>
        simp [max_prod_fast_real, compress_dual, leadScan, compressStep, reduceLoop, h, h0,
          not_lt.mpr, List.range']
    · simp [max_prod_fast_real, compress_dual, leadScan, compressStep, reduceLoop,
        not_lt.mpr h.le, h, List.range']

/-- C5 witness: instantiation of C5_singleton at the singleton sequences
[4] (integer) and [2] (real), with the inner hypothesis 2 ≠ 1
discharged. -/
theorem C5_singleton_witness :
    (2 : ℚ) ≠ 1 ∧
    (max_prod_fast_int [4] = (0, 0) ∧
     max_prod_brute_force [4] = (0, 0) ∧
     max_prod_brute_force_improved [4] = (0, 0) ∧
     max_prod_brute_force [(2 : ℚ)] = (0, 0) ∧
     max_prod_brute_force_improved [(2 : ℚ)] = (0, 0) ∧
     max_prod_fast_real [(2 : ℚ)] = (0, 0)) :=
  ⟨by norm_num, by
    obtain ⟨h1, h2, h3, h4, h5, h6⟩ := C5_singleton 4 2
    exact ⟨h1, h2, h3, h4, h5, h6 (by norm_num)⟩⟩

-- ===== A: prodSeg lemmas (over ℕ) =====

theorem prodSeg_single {M : Type} [Monoid M] [Zero M] (arr : List M) (i : ℕ) (h : i < arr.length) :
    prodSeg arr i i = arr.getD i 0 := by
  unfold prodSeg
  rw [show i + 1 - i = 1 by omega, List.drop_eq_getElem_cons h, List.take_one]
  simp only [List.head?_cons, Option.toList_some, List.prod_cons, List.prod_nil, mul_one]
  exact (List.getD_eq_getElem arr 0 h).symm

theorem take_drop_prod_concat {M : Type} [Monoid M] [Zero M] (arr : List M) (s k : ℕ)
    (h : s + k < arr.length) :
    ((arr.drop s).take (k + 1)).prod = ((arr.drop s).take k).prod * arr.getD (s + k) 0 := by
  rw [List.take_succ, List.getElem?_drop, List.getElem?_eq_getElem h, List.prod_append,
    List.getD_eq_getElem arr 0 h]
  simp

theorem prodSeg_concat {M : Type} [Monoid M] [Zero M] (arr : List M) (i j : ℕ) (hij : i ≤ j + 1)
    (hj : j + 1 < arr.length) :
    prodSeg arr i (j + 1) = prodSeg arr i j * arr.getD (j + 1) 0 := by
  unfold prodSeg
  rw [show j + 1 + 1 - i = (j + 1 - i) + 1 by omega,
    take_drop_prod_concat arr i (j + 1 - i) (by omega),
    show i + (j + 1 - i) = j + 1 by omega]

theorem prodSeg_split {M : Type} [Monoid M] (arr : List M) (i m j : ℕ) (h1 : i ≤ m)
    (h2 : m ≤ j + 1) :
    prodSeg arr i j = ((arr.drop i).take (m - i)).prod * prodSeg arr m j := by
  unfold prodSeg
  rw [show j + 1 - i = (m - i) + (j + 1 - m) by omega,
    List.take_add, List.prod_append, List.drop_drop,
    show i + (m - i) = m by omega]

theorem slice_elem {α : Type} (arr : List α) (d : α) (s len t : ℕ)
    (ht : t < ((arr.drop s).take len).length) :
    ((arr.drop s).take len)[t] = arr.getD (s + t) d ∧ t < len ∧ s + t < arr.length := by
  have hlen := ht
  rw [List.length_take, List.length_drop] at hlen
  have h1 : t < len := lt_of_lt_of_le hlen (min_le_left _ _)
  have h2 : s + t < arr.length := by
    have := lt_of_lt_of_le hlen (min_le_right _ _); omega
  refine ⟨?_, h1, h2⟩
  rw [List.getElem_take, List.getElem_drop, List.getD_eq_getElem arr d h2]

theorem prodSeg_pos (arr : List ℕ) (i j : ℕ) (hj : j < arr.length)
    (hnz : ∀ k, i ≤ k → k ≤ j → arr.getD k 0 ≠ 0) : 0 < prodSeg arr i j := by
  rw [Nat.pos_iff_ne_zero]
  intro h0
  rw [prodSeg, List.prod_eq_zero_iff] at h0
  obtain ⟨t, ht, h0'⟩ := List.mem_iff_getElem.mp h0
  obtain ⟨he, h1, h2⟩ := slice_elem arr 0 i (j + 1 - i) t ht
  rw [he] at h0'
  exact hnz (i + t) (by omega) (by omega) h0'

theorem prodSeg_factor_ne_zero (arr : List ℕ) (i j k : ℕ)
    (hik : i ≤ k) (hkj : k ≤ j) (hj : j < arr.length)
    (h : prodSeg arr i j ≠ 0) : arr.getD k 0 ≠ 0 := by
  intro hk
  apply h
  rw [prodSeg, List.prod_eq_zero_iff]
  rw [List.mem_iff_getElem]
  have hlen : k - i < ((arr.drop i).take (j + 1 - i)).length := by
    rw [List.length_take, List.length_drop]; omega
  refine ⟨k - i, hlen, ?_⟩
  obtain ⟨he, -, -⟩ := slice_elem arr 0 i (j + 1 - i) (k - i) hlen
  rw [he, show i + (k - i) = k by omega, hk]

theorem slice_prod_one_le (arr : List ℕ) (s len : ℕ)
    (hnz : ∀ k, s ≤ k → k < s + len → arr.getD k 0 ≠ 0) :
    1 ≤ ((arr.drop s).take len).prod := by
  apply List.one_le_prod_of_one_le
  intro x hx
  obtain ⟨t, ht, hxe⟩ := List.mem_iff_getElem.mp hx
  obtain ⟨he, h1, h2⟩ := slice_elem arr 0 s len t ht
  rw [← hxe, he]
  exact Nat.one_le_iff_ne_zero.mpr (hnz (s + t) (by omega) (by omega))

-- ===== B: bestStep fold lemmas =====

theorem bestStep_pos (st c : ℕ × (ℕ × ℕ)) (h : st.1 < c.1) : bestStep st c = c := by
  unfold bestStep
  rw [if_pos h]

theorem bestStep_neg (st c : ℕ × (ℕ × ℕ)) (h : ¬ st.1 < c.1) : bestStep st c = st := by
  unfold bestStep
  rw [if_neg h]

theorem foldl_bestStep_fixed : ∀ (l : List (ℕ × (ℕ × ℕ))) (st : ℕ × (ℕ × ℕ)),
    (∀ c ∈ l, c.1 ≤ st.1) → l.foldl bestStep st = st
  | [], _, _ => rfl
  | c :: l, st, h => by
    rw [List.foldl_cons, bestStep_neg st c (not_lt.mpr (h c (List.mem_cons_self c l)))]
    exact foldl_bestStep_fixed l st fun d hd => h d (List.mem_cons_of_mem c hd)

theorem foldl_bestStep_lt (v : ℕ) : ∀ (l : List (ℕ × (ℕ × ℕ))) (st : ℕ × (ℕ × ℕ)),
    (∀ c ∈ l, c.1 < v) → st.1 < v → (l.foldl bestStep st).1 < v
  | [], _, _, hst => hst
  | c :: l, st, hl, hst => by
    rw [List.foldl_cons]
    refine foldl_bestStep_lt v l (bestStep st c)
      (fun d hd => hl d (List.mem_cons_of_mem c hd)) ?_
    unfold bestStep
    split
    · exact hl c (List.mem_cons_self c l)
    · exact hst

theorem foldl_bestStep_le (v : ℕ) : ∀ (l : List (ℕ × (ℕ × ℕ))) (st : ℕ × (ℕ × ℕ)),
    (∀ c ∈ l, c.1 ≤ v) → st.1 ≤ v → (l.foldl bestStep st).1 ≤ v
  | [], _, _, hst => hst
  | c :: l, st, hl, hst => by
    rw [List.foldl_cons]
    refine foldl_bestStep_le v l (bestStep st c)
      (fun d hd => hl d (List.mem_cons_of_mem c hd)) ?_
    unfold bestStep
    split
    · exact hl c (List.mem_cons_self c l)
    · exact hst

theorem le_foldl_bestStep : ∀ (l : List (ℕ × (ℕ × ℕ))) (st : ℕ × (ℕ × ℕ)),
    st.1 ≤ (l.foldl bestStep st).1
  | [], _ => le_rfl
  | c :: l, st => by
    rw [List.foldl_cons]
    refine le_trans ?_ (le_foldl_bestStep l (bestStep st c))
    unfold bestStep
    split
    · omega
    · exact le_rfl

theorem mem_le_foldl_bestStep : ∀ (l : List (ℕ × (ℕ × ℕ))) (st c : ℕ × (ℕ × ℕ)),
    c ∈ l → c.1 ≤ (l.foldl bestStep st).1
  | [], _, _, hc => absurd hc (List.not_mem_nil _)
  | d :: l, st, c, hc => by
    rw [List.foldl_cons]
    rcases List.mem_cons.mp hc with rfl | hc2
    · refine le_trans ?_ (le_foldl_bestStep l (bestStep st c))
      unfold bestStep
      split
      · exact le_rfl
      · omega
    · exact mem_le_foldl_bestStep l (bestStep st d) c hc2

theorem foldl_bestStep_init_or_mem : ∀ (l : List (ℕ × (ℕ × ℕ))) (st : ℕ × (ℕ × ℕ)),
    l.foldl bestStep st = st ∨
    (l.foldl bestStep st ∈ l ∧ st.1 < (l.foldl bestStep st).1)
  | [], _ => Or.inl rfl
  | c :: l, st => by
    rw [List.foldl_cons]
    rcases foldl_bestStep_init_or_mem l (bestStep st c) with h | ⟨hm, hv⟩
    · rw [h]
      by_cases hlt : st.1 < c.1
      · rw [bestStep_pos st c hlt]
        exact Or.inr ⟨List.mem_cons_self c l, hlt⟩
      · rw [bestStep_neg st c hlt]
        exact Or.inl rfl
    · refine Or.inr ⟨List.mem_cons_of_mem c hm, lt_of_le_of_lt ?_ hv⟩
      unfold bestStep
      split
      · omega
      · exact le_rfl

theorem best_append (l1 l2 : List (ℕ × (ℕ × ℕ))) (c : ℕ × (ℕ × ℕ))
    (h1 : ∀ d ∈ l1, d.1 < c.1) (h2 : ∀ d ∈ l2, d.1 ≤ c.1) (h0 : 0 < c.1) :
    best (l1 ++ c :: l2) = c := by
  unfold best
  rw [List.foldl_append, List.foldl_cons]
  have hst1 : (l1.foldl bestStep (0, (0, 0))).1 < c.1 :=
    foldl_bestStep_lt c.1 l1 (0, (0, 0)) h1 h0
  rw [bestStep_pos _ c hst1]
  exact foldl_bestStep_fixed l2 c h2

-- ===== C: runStart lemmas =====

theorem runStart_le_self (arr : List ℕ) : ∀ i, runStart arr i ≤ i
  | 0 => le_rfl
  | i + 1 => by
    unfold runStart
    split
    · exact le_rfl
    · exact (runStart_le_self arr i).trans (Nat.le_succ i)

theorem runStart_zero_free (arr : List ℕ) :
    ∀ i k, runStart arr i ≤ k → k < i → arr.getD k 0 ≠ 0
  | 0, k, _, hk => absurd hk (Nat.not_lt_zero k)
  | i + 1, k, hrk, hk => by
    revert hrk
    unfold runStart
    split
    · intro hrk
      omega
    · intro hrk
      rcases Nat.lt_succ_iff_lt_or_eq.mp hk with h | rfl
      · exact runStart_zero_free arr i k hrk h
      · assumption

theorem runStart_le_of_zero_free (arr : List ℕ) :
    ∀ j i, i ≤ j → (∀ k, i ≤ k → k < j → arr.getD k 0 ≠ 0) → runStart arr j ≤ i
  | 0, i, hij, _ => by simp [runStart]
  | j + 1, i, hij, hz => by
    rcases Nat.lt_succ_iff_lt_or_eq.mp (Nat.lt_succ_of_le hij) with h | rfl
    · unfold runStart
      rw [if_neg (hz j (by omega) (by omega))]
      exact runStart_le_of_zero_free arr j i (by omega) fun k hk1 hk2 => hz k hk1 (by omega)
    · exact runStart_le_self arr (j + 1)

theorem runStart_pos_pred_zero (arr : List ℕ) :
    ∀ i, 0 < runStart arr i → arr.getD (runStart arr i - 1) 0 = 0
  | 0, h => by simp [runStart] at h
  | i + 1, h => by
    revert h
    unfold runStart
    split
    · next h0 =>
      intro _
      simpa using h0
    · exact runStart_pos_pred_zero arr i

-- ===== D: fold fusion helpers =====

theorem foldl_flatMap_eq {α β γ : Type} (g : γ → β → γ) (f : α → List β) :
    ∀ (l : List α) (init : γ),
      (l.flatMap f).foldl g init = l.foldl (fun acc x => (f x).foldl g acc) init
  | [], _ => rfl
  | x :: l, init => by
    rw [List.flatMap_cons, List.foldl_append, List.foldl_cons]
    exact foldl_flatMap_eq g f l _

theorem foldl_congr_mem {α β : Type} (g g2 : β → α → β) :
    ∀ (l : List α) (st : β), (∀ st2 x, x ∈ l → g st2 x = g2 st2 x) →
      l.foldl g st = l.foldl g2 st
  | [], _, _ => rfl
  | x :: l, st, h => by
    rw [List.foldl_cons, List.foldl_cons, h st x (List.mem_cons_self x l)]
    exact foldl_congr_mem g g2 l (g2 st x) fun st2 y hy => h st2 y (List.mem_cons_of_mem x hy)

theorem foldl_mul_getD (arr : List ℕ) :
    ∀ (len s init : ℕ), s + len ≤ arr.length →
      (List.range' s len).foldl (fun p k => p * arr.getD k 0) init =
        init * ((arr.drop s).take len).prod
  | 0, s, init, _ => by simp
  | len + 1, s, init, h => by
    rw [List.range'_succ, List.foldl_cons,
      foldl_mul_getD arr len (s + 1) (init * arr.getD s 0) (by omega)]
    have hs : s < arr.length := by omega
    rw [List.drop_eq_getElem_cons hs, List.take_succ_cons, List.prod_cons,
      List.getD_eq_getElem arr 0 hs]
    ring

-- ===== E: the oracles compute best over the lexicographic candidates =====

theorem best_bruteCands_fold (arr : List ℕ) :
    best (bruteCands arr) =
      (List.range arr.length).foldl
        (fun st i => (List.range' i (arr.length - i)).foldl
          (fun st j => bestStep st (candVal arr (i, j))) st) (0, (0, 0)) := by
  unfold best bruteCands pairsLex
  rw [List.map_flatMap, foldl_flatMap_eq]
  refine foldl_congr_mem _ _ (List.range arr.length) _ fun st2 i _ => ?_
  rw [List.map_map, List.foldl_map]
  rfl

theorem brute_force_eq_best (arr : List ℕ) :
    max_prod_brute_force arr = (best (bruteCands arr)).2 := by
  rw [best_bruteCands_fold]
  show (((List.range arr.length).foldl (fun st i =>
    (List.range' i (arr.length - i)).foldl (fun st j =>
      let prod := (List.range' i (j + 1 - i)).foldl (fun p k => p * arr.getD k 0) 1
      if st.1 < prod then (prod, (i, j)) else st) st)
    ((0 : ℕ), ((0 : ℕ), (0 : ℕ)))).2) = _
  congr 1
  refine foldl_congr_mem _ _ (List.range arr.length) _ fun st2 i hi => ?_
  refine foldl_congr_mem _ _ (List.range' i (arr.length - i)) _ fun st3 j hj => ?_
  have hi2 : i < arr.length := List.mem_range.mp hi
  have hj2 : i ≤ j ∧ j < arr.length := by
    have := List.mem_range'_1.mp hj
    omega
  show (if st3.1 < (List.range' i (j + 1 - i)).foldl (fun p k => p * arr.getD k 0) 1 then _ else st3) = _
  rw [foldl_mul_getD arr (j + 1 - i) i 1 (by omega), one_mul]
  rfl

theorem improved_inner_fold (arr : List ℕ) (i : ℕ) :
    ∀ (len s : ℕ) (st : ℕ × (ℕ × ℕ)) (p : ℕ), i ≤ s → s + len ≤ arr.length →
      p = ((arr.drop i).take (s - i)).prod →
      ((List.range' s len).foldl (fun sp j =>
        let prod := sp.2 * arr.getD j 0
        (if sp.1.1 < prod then (prod, (i, j)) else sp.1, prod)) (st, p)).1 =
      (List.range' s len).foldl (fun st j => bestStep st (candVal arr (i, j))) st
  | 0, s, st, p, _, _, _ => rfl
  | len + 1, s, st, p, his, hsl, hp => by
    rw [List.range'_succ, List.foldl_cons, List.foldl_cons]
    have hs : s < arr.length := by omega
    have hprod : p * arr.getD s 0 = prodSeg arr i s := by
      rw [hp, prodSeg, show s + 1 - i = (s - i) + 1 by omega,
        take_drop_prod_concat arr i (s - i) (by omega),
        show i + (s - i) = s by omega]
    refine Eq.trans (improved_inner_fold arr i len (s + 1)
      (if st.1 < p * arr.getD s 0 then (p * arr.getD s 0, (i, s)) else st)
      (p * arr.getD s 0) (by omega) (by omega) ?_) ?_
    · rw [hprod]
      rfl
    · congr 1
      simp only [bestStep, candVal, hprod]

theorem improved_eq_best (arr : List ℕ) :
    max_prod_brute_force_improved arr = (best (bruteCands arr)).2 := by
  rw [best_bruteCands_fold]
  show ((List.range arr.length).foldl (fun st i =>
    ((List.range' i (arr.length - i)).foldl (fun sp j =>
      let prod := sp.2 * arr.getD j 0
      (if sp.1.1 < prod then (prod, (i, j)) else sp.1, prod)) (st, 1)).1)
    ((0 : ℕ), ((0 : ℕ), (0 : ℕ)))).2 = _
  congr 1
  refine foldl_congr_mem _ _ (List.range arr.length) _ fun st2 i hi => ?_
  have hi2 : i < arr.length := List.mem_range.mp hi
  exact improved_inner_fold arr i (arr.length - i) i st2 1 le_rfl (by omega) (by simp)

-- ===== F: the zero-segmented scan computes best over its candidates =====

theorem cp_ne_zero (arr : List ℕ) (m : ℕ) (hm : m < arr.length)
    (hz : arr.getD m 0 ≠ 0) : prodSeg arr (runStart arr m) m ≠ 0 := by
  refine Nat.pos_iff_ne_zero.mp (prodSeg_pos arr (runStart arr m) m hm ?_)
  intro k hk1 hk2
  rcases Nat.lt_or_ge k m with h | h
  · exact runStart_zero_free arr m k hk1 h
  · rw [show k = m by omega]
    exact hz

theorem runStart_succ (arr : List ℕ) (m : ℕ) :
    runStart arr (m + 1) = if arr.getD m 0 = 0 then m + 1 else runStart arr m := rfl

theorem fastIntStep_spec (arr : List ℕ) (m : ℕ) (hm : m < arr.length) (B : ℕ × (ℕ × ℕ)) :
    fastIntStep arr (B, scanPair arr m) m = (bestStep B (fastCand arr m), scanPair arr (m + 1)) := by
  by_cases hz : arr.getD m 0 = 0
  · have hsp : scanPair arr (m + 1) = ((m, m), 0) := by
      unfold scanPair
      rw [if_neg (Nat.succ_ne_zero m), Nat.add_sub_cancel, if_pos hz]
    have hfc : fastCand arr m = (0, (m, m)) := by
      unfold fastCand
      rw [if_pos hz]
    rw [hsp, hfc]
    simp only [fastIntStep]
    rw [if_neg (not_not_intro hz)]
    unfold bestStep
    rw [if_neg (Nat.not_lt_zero B.1)]
  · have hsp : scanPair arr (m + 1) =
        ((runStart arr m, m), prodSeg arr (runStart arr m) m) := by
      unfold scanPair
      rw [if_neg (Nat.succ_ne_zero m)]
      simp only [Nat.add_sub_cancel]
      rw [if_neg hz]
    have hfc : fastCand arr m = (prodSeg arr (runStart arr m) m, (runStart arr m, m)) := by
      unfold fastCand
      rw [if_neg hz]
    rw [hsp, hfc]
    -- the new current pair always equals ((runStart arr m, m), prodSeg arr (runStart arr m) m)
    have hcc : (fun cur cp => (((if cp = 0 then m else cur.1 : ℕ), m),
        (if cp = 0 then (1 : ℕ) else cp) * arr.getD m 0))
          (scanPair arr m).1 (scanPair arr m).2 =
        ((runStart arr m, m), prodSeg arr (runStart arr m) m) := by
      rcases Nat.eq_zero_or_pos m with rfl | hpos
      · show (((if (0 : ℕ) = 0 then 0 else (0 : ℕ)), (0 : ℕ)), (if (0 : ℕ) = 0 then (1 : ℕ) else 0) * arr.getD 0 0) = _
        rw [if_pos rfl, if_pos rfl, one_mul, show runStart arr 0 = 0 from rfl,
          prodSeg_single arr 0 hm]
      · by_cases hz2 : arr.getD (m - 1) 0 = 0
        · have hspm : scanPair arr m = ((m - 1, m - 1), 0) := by
            unfold scanPair
            rw [if_neg (by omega), if_pos hz2]
          have hrsm : runStart arr m = m := by
            rcases Nat.exists_eq_add_of_lt hpos with ⟨m2, hm2⟩
            rw [show m = m2 + 1 by omega] at hz2 ⊢
            rw [runStart_succ, if_pos (by simpa using hz2)]
          rw [hspm, hrsm]
          show (((if (0 : ℕ) = 0 then m else m - 1), m), (if (0 : ℕ) = 0 then (1 : ℕ) else 0) * arr.getD m 0) = _
          rw [if_pos rfl, if_pos rfl, one_mul, prodSeg_single arr m hm]
        · have hspm : scanPair arr m =
              ((runStart arr (m - 1), m - 1), prodSeg arr (runStart arr (m - 1)) (m - 1)) := by
            unfold scanPair
            rw [if_neg (by omega), if_neg hz2]
          have hcp : prodSeg arr (runStart arr (m - 1)) (m - 1) ≠ 0 :=
            cp_ne_zero arr (m - 1) (by omega) hz2
          have hrsm : runStart arr m = runStart arr (m - 1) := by
            rcases Nat.exists_eq_add_of_lt hpos with ⟨m2, hm2⟩
            rw [show m = m2 + 1 by omega] at hz2 ⊢
            simp only [Nat.add_sub_cancel]
            rw [runStart_succ, if_neg (by simpa using hz2)]
          have hconcat : prodSeg arr (runStart arr (m - 1)) (m - 1) * arr.getD m 0 =
              prodSeg arr (runStart arr m) m := by
            rw [hrsm]
            have h2 := prodSeg_concat arr (runStart arr (m - 1)) (m - 1)
              ((runStart_le_self arr (m - 1)).trans (by omega)) (by omega)
            rw [show m - 1 + 1 = m by omega] at h2
            rw [h2]
          rw [hspm]
          show (((if prodSeg arr (runStart arr (m - 1)) (m - 1) = 0 then m else runStart arr (m - 1)), m),
            (if prodSeg arr (runStart arr (m - 1)) (m - 1) = 0 then (1 : ℕ)
              else prodSeg arr (runStart arr (m - 1)) (m - 1)) * arr.getD m 0) = _
          rw [if_neg hcp, if_neg hcp, hconcat, hrsm]
    simp only [fastIntStep]
    rw [if_pos hz]
    have hcc2 := hcc
    simp only [] at hcc2
    rw [hcc2]
    unfold bestStep
    rfl

theorem fastIntScan_spec (arr : List ℕ) : ∀ m, m ≤ arr.length →
    fastIntScan arr m =
      (((List.range m).map (fastCand arr)).foldl bestStep (0, (0, 0)), scanPair arr m)
  | 0, _ => rfl
  | m + 1, h => by
    unfold fastIntScan
    rw [List.range_succ, List.foldl_append, List.foldl_cons, List.foldl_nil]
    have ih := fastIntScan_spec arr m (by omega)
    unfold fastIntScan at ih
    rw [ih, fastIntStep_spec arr m (by omega) _, List.map_append, List.foldl_append]
    rfl

theorem fast_int_eq_best (arr : List ℕ) :
    max_prod_fast_int arr = (best (fastCands arr)).2 := by
  have h2 : max_prod_fast_int arr = (fastIntScan arr arr.length).1.2 := rfl
  rw [h2, fastIntScan_spec arr arr.length le_rfl]
  rfl

theorem prodSeg_le_runStart_prodSeg (arr : List ℕ) (i j : ℕ) (hij : i ≤ j)
    (hjn : j < arr.length) (h0 : prodSeg arr i j ≠ 0) :
    prodSeg arr i j ≤ prodSeg arr (runStart arr j) j := by
  have hzf : ∀ k, i ≤ k → k < j → arr.getD k 0 ≠ 0 := fun k hk1 hk2 =>
    prodSeg_factor_ne_zero arr i j k hk1 (by omega) hjn h0
  have hrs : runStart arr j ≤ i := runStart_le_of_zero_free arr j i hij hzf
  have hsplit := prodSeg_split arr (runStart arr j) i j hrs (by omega)
  have hone : 1 ≤ ((arr.drop (runStart arr j)).take (i - runStart arr j)).prod := by
    refine slice_prod_one_le arr _ _ fun k hk1 hk2 => ?_
    exact runStart_zero_free arr j k hk1 (by omega)
  calc prodSeg arr i j = 1 * prodSeg arr i j := (one_mul _).symm
    _ ≤ ((arr.drop (runStart arr j)).take (i - runStart arr j)).prod * prodSeg arr i j :=
        Nat.mul_le_mul_right _ hone
    _ = prodSeg arr (runStart arr j) j := hsplit.symm

theorem fastCand_mem (arr : List ℕ) (i : ℕ) (hi : i < arr.length) :
    fastCand arr i ∈ fastCands arr := by
  unfold fastCands
  exact List.mem_map_of_mem _ (List.mem_range.mpr hi)

theorem prodSeg_le_bestFast (arr : List ℕ) (i j : ℕ) (hij : i ≤ j)
    (hjn : j < arr.length) : prodSeg arr i j ≤ (best (fastCands arr)).1 := by
  by_cases h0 : prodSeg arr i j = 0
  · rw [h0]
    exact Nat.zero_le _
  · have hj : arr.getD j 0 ≠ 0 := prodSeg_factor_ne_zero arr i j j hij le_rfl hjn h0
    have h1 : prodSeg arr i j ≤ (fastCand arr j).1 := by
      rw [show fastCand arr j = (prodSeg arr (runStart arr j) j, (runStart arr j, j)) by
        unfold fastCand; rw [if_neg hj]]
      exact prodSeg_le_runStart_prodSeg arr i j hij hjn h0
    exact h1.trans (mem_le_foldl_bestStep (fastCands arr) _ _ (fastCand_mem arr j hjn))

theorem mem_pairsLex (n : ℕ) (p : ℕ × ℕ) : p ∈ pairsLex n ↔ p.1 ≤ p.2 ∧ p.2 < n := by
  unfold pairsLex
  rw [List.mem_flatMap]
  constructor
  · rintro ⟨i, hi, hp⟩
    rw [List.mem_map] at hp
    obtain ⟨j, hj, rfl⟩ := hp
    have h1 := List.mem_range.mp hi
    have h2 := List.mem_range'_1.mp hj
    exact ⟨by simpa using h2.1, by simp; omega⟩
  · rintro ⟨h1, h2⟩
    refine ⟨p.1, List.mem_range.mpr (by omega), ?_⟩
    rw [List.mem_map]
    exact ⟨p.2, List.mem_range'_1.mpr (by omega), rfl⟩

theorem mem_bruteCands_val_le (arr : List ℕ) (c : ℕ × (ℕ × ℕ))
    (hc : c ∈ bruteCands arr) : c.1 ≤ (best (bruteCands arr)).1 :=
  mem_le_foldl_bestStep (bruteCands arr) _ c hc

theorem fastCands_val_le_bestBrute (arr : List ℕ) (c : ℕ × (ℕ × ℕ))
    (hc : c ∈ fastCands arr) : c.1 ≤ (best (bruteCands arr)).1 := by
  unfold fastCands at hc
  rw [List.mem_map] at hc
  obtain ⟨i, hi, rfl⟩ := hc
  have hin : i < arr.length := List.mem_range.mp hi
  by_cases hz : arr.getD i 0 = 0
  · rw [show fastCand arr i = (0, (i, i)) by unfold fastCand; rw [if_pos hz]]
    exact Nat.zero_le _
  · rw [show fastCand arr i = (prodSeg arr (runStart arr i) i, (runStart arr i, i)) by
      unfold fastCand; rw [if_neg hz]]
    refine mem_bruteCands_val_le arr _ ?_
    unfold bruteCands
    rw [show ((prodSeg arr (runStart arr i) i, (runStart arr i, i)) : ℕ × (ℕ × ℕ)) =
      candVal arr (runStart arr i, i) from rfl]
    refine List.mem_map_of_mem _ ?_
    rw [mem_pairsLex]
    exact ⟨runStart_le_self arr i, hin⟩

theorem range_split_at (n k : ℕ) (h : k < n) :
    List.range n = List.range k ++ k :: List.range' (k + 1) (n - k - 1) := by
  rw [List.range_eq_range', List.range_eq_range']
  have ha := List.range'_append 0 k (n - k) 1
  simp only [one_mul, Nat.zero_add] at ha
  rw [show n = k + (n - k) by omega] at h ⊢
  rw [show k + (n - k) - k - 1 = n - k - 1 by omega]
  rw [show (n - k) + k = k + (n - k) by omega] at ha
  rw [← ha]
  congr 1
  rw [show n - k = (n - k - 1) + 1 by omega]
  rw [List.range'_succ, Nat.add_sub_cancel]

theorem range'_split_at (s len k : ℕ) (h1 : s ≤ k) (h2 : k < s + len) :
    List.range' s len = List.range' s (k - s) ++ k :: List.range' (k + 1) (s + len - k - 1) := by
  have ha := List.range'_append s (k - s) (len - (k - s)) 1
  simp only [one_mul] at ha
  rw [show s + (k - s) = k by omega] at ha
  rw [show len - (k - s) + (k - s) = len by omega] at ha
  rw [← ha]
  congr 1
  rw [show len - (k - s) = (s + len - k - 1) + 1 by omega]
  rw [List.range'_succ]

theorem pairsLex_decomp (n i0 j0 : ℕ) (h1 : i0 ≤ j0) (h2 : j0 < n) :
    ∃ P1 P2, pairsLex n = P1 ++ (i0, j0) :: P2 ∧
      (∀ p ∈ P1, (p.1 < i0 ∨ (p.1 = i0 ∧ p.2 < j0)) ∧ p.1 ≤ p.2 ∧ p.2 < n) ∧
      (∀ p ∈ P2, p.1 ≤ p.2 ∧ p.2 < n) := by
  refine ⟨((List.range i0).flatMap fun i => (List.range' i (n - i)).map fun j => (i, j)) ++
      ((List.range' i0 (j0 - i0)).map fun j => ((i0 : ℕ), j)),
    ((List.range' (j0 + 1) (n - j0 - 1)).map fun j => ((i0 : ℕ), j)) ++
      ((List.range' (i0 + 1) (n - i0 - 1)).flatMap fun i =>
        (List.range' i (n - i)).map fun j => (i, j)), ?_, ?_, ?_⟩
  · unfold pairsLex
    rw [range_split_at n i0 (by omega), List.flatMap_append, List.flatMap_cons]
    rw [range'_split_at i0 (n - i0) j0 h1 (by omega)]
    rw [List.map_append, List.map_cons]
    rw [show i0 + (n - i0) - j0 - 1 = n - j0 - 1 by omega]
    simp only [List.append_assoc, List.cons_append]
  · intro p hp
    rcases List.mem_append.mp hp with hp | hp
    · rw [List.mem_flatMap] at hp
      obtain ⟨i, hi, hp⟩ := hp
      rw [List.mem_map] at hp
      obtain ⟨j, hj, rfl⟩ := hp
      have hi2 := List.mem_range.mp hi
      have hj2 := List.mem_range'_1.mp hj
      exact ⟨Or.inl (by simpa using hi2), by simp; omega⟩
    · rw [List.mem_map] at hp
      obtain ⟨j, hj, rfl⟩ := hp
      have hj2 := List.mem_range'_1.mp hj
      exact ⟨Or.inr ⟨rfl, by simp; omega⟩, by simp; omega⟩
  · intro p hp
    rcases List.mem_append.mp hp with hp | hp
    · rw [List.mem_map] at hp
      obtain ⟨j, hj, rfl⟩ := hp
      have hj2 := List.mem_range'_1.mp hj
      constructor <;> simp <;> omega
    · rw [List.mem_flatMap] at hp
      obtain ⟨i, hi, hp⟩ := hp
      rw [List.mem_map] at hp
      obtain ⟨j, hj, rfl⟩ := hp
      have hi2 := List.mem_range'_1.mp hi
      have hj2 := List.mem_range'_1.mp hj
      constructor <;> simp <;> omega

theorem mem_le_best (l : List (ℕ × (ℕ × ℕ))) (c : ℕ × (ℕ × ℕ)) (hc : c ∈ l) :
    c.1 ≤ (best l).1 :=
  mem_le_foldl_bestStep l (0, (0, 0)) c hc

theorem best_init_or_mem (l : List (ℕ × (ℕ × ℕ))) :
    best l = (0, (0, 0)) ∨ (best l ∈ l ∧ 0 < (best l).1) :=
  foldl_bestStep_init_or_mem l (0, (0, 0))

theorem best_le (l : List (ℕ × (ℕ × ℕ))) (v : ℕ) (h : ∀ c ∈ l, c.1 ≤ v) :
    (best l).1 ≤ v :=
  foldl_bestStep_le v l (0, (0, 0)) h (Nat.zero_le v)

theorem best_fast_first (arr : List ℕ) (hfm : best (fastCands arr) ∈ fastCands arr)
    (hfv : 0 < (best (fastCands arr)).1) :
    ∃ k0, k0 < arr.length ∧ arr.getD k0 0 ≠ 0 ∧
      (fastCand arr k0).1 = (best (fastCands arr)).1 ∧
      best (fastCands arr) = fastCand arr k0 ∧
      (∀ i, i < k0 → (fastCand arr i).1 < (best (fastCands arr)).1) := by
  have hfm2 : best (fastCands arr) ∈ (List.range arr.length).map (fastCand arr) := hfm
  rw [List.mem_map] at hfm2
  obtain ⟨iw, hiw, hiwe⟩ := hfm2
  have hex : ∃ i, i < arr.length ∧ (fastCand arr i).1 = (best (fastCands arr)).1 :=
    ⟨iw, List.mem_range.mp hiw, by rw [hiwe]⟩
  have key : ∃ k0, (k0 < arr.length ∧ (fastCand arr k0).1 = (best (fastCands arr)).1) ∧
      ∀ i, i < k0 → (fastCand arr i).1 < (best (fastCands arr)).1 := by
    refine ⟨Nat.find hex, Nat.find_spec hex, fun i hi => ?_⟩
    have hni := Nat.find_min hex hi
    push_neg at hni
    have hiln : i < arr.length := by
      have := (Nat.find_spec hex).1
      omega
    have hle : (fastCand arr i).1 ≤ (best (fastCands arr)).1 :=
      mem_le_best _ _ (fastCand_mem arr i hiln)
    have hne := hni hiln
    omega
  obtain ⟨k0, ⟨hk0n, hk0v⟩, hk0min⟩ := key
  have hz : arr.getD k0 0 ≠ 0 := by
    intro h0
    rw [show fastCand arr k0 = (0, (k0, k0)) by unfold fastCand; rw [if_pos h0]] at hk0v
    simp only [] at hk0v
    omega
  have hA : best (fastCands arr) = fastCand arr k0 := by
    have hsplit : fastCands arr = (List.range k0).map (fastCand arr) ++ fastCand arr k0 ::
        (List.range' (k0 + 1) (arr.length - k0 - 1)).map (fastCand arr) := by
      unfold fastCands
      rw [range_split_at arr.length k0 hk0n, List.map_append, List.map_cons]
    rw [hsplit]
    refine best_append _ _ _ ?_ ?_ ?_
    · intro d hd
      rw [List.mem_map] at hd
      obtain ⟨i, hi, rfl⟩ := hd
      have := hk0min i (List.mem_range.mp hi)
      omega
    · intro d hd
      rw [List.mem_map] at hd
      obtain ⟨i, hi, rfl⟩ := hd
      have hi2 := List.mem_range'_1.mp hi
      have hiln : i < arr.length := by omega
      have := mem_le_best _ _ (fastCand_mem arr i hiln)
      omega
    · omega
  exact ⟨k0, hk0n, hz, hk0v, hA, hk0min⟩

theorem first_attain_le (arr : List ℕ) (k0 : ℕ) (hk0n : k0 < arr.length)
    (hk0v : (fastCand arr k0).1 = (best (fastCands arr)).1)
    (hk0min : ∀ i, i < k0 → (fastCand arr i).1 < (best (fastCands arr)).1)
    (hfv : 0 < (best (fastCands arr)).1)
    (p : ℕ × ℕ) (hp1 : p.1 ≤ p.2) (hp2 : p.2 < arr.length)
    (heq : prodSeg arr p.1 p.2 = (best (fastCands arr)).1) :
    runStart arr k0 ≤ p.1 ∧ k0 ≤ p.2 := by
  have hpos : prodSeg arr p.1 p.2 ≠ 0 := by omega
  have hj : arr.getD p.2 0 ≠ 0 :=
    prodSeg_factor_ne_zero arr p.1 p.2 p.2 hp1 le_rfl hp2 hpos
  have hup : prodSeg arr p.1 p.2 ≤ prodSeg arr (runStart arr p.2) p.2 :=
    prodSeg_le_runStart_prodSeg arr p.1 p.2 hp1 hp2 hpos
  have hfv2 : (fastCand arr p.2).1 = prodSeg arr (runStart arr p.2) p.2 := by
    unfold fastCand
    rw [if_neg hj]
  have hfle : (fastCand arr p.2).1 ≤ (best (fastCands arr)).1 :=
    mem_le_best _ _ (fastCand_mem arr p.2 hp2)
  have hk0le : k0 ≤ p.2 := by
    by_contra hlt
    have := hk0min p.2 (by omega)
    omega
  refine ⟨?_, hk0le⟩
  by_contra hlt
  push_neg at hlt
  have hs0pos : 0 < runStart arr k0 := by omega
  have hzero := runStart_pos_pred_zero arr k0 hs0pos
  have hs0le : runStart arr k0 ≤ k0 := runStart_le_self arr k0
  exact prodSeg_factor_ne_zero arr p.1 p.2 (runStart arr k0 - 1)
    (by omega) (by omega) hp2 hpos hzero

theorem best_fast_eq_best_brute (arr : List ℕ) :
    best (fastCands arr) = best (bruteCands arr) := by
  rcases best_init_or_mem (fastCands arr) with hf | ⟨hfm, hfv⟩
  · have hMf : (best (fastCands arr)).1 = 0 := by rw [hf]
    rcases best_init_or_mem (bruteCands arr) with hb | ⟨hbm, hbv⟩
    · rw [hf, hb]
    · exfalso
      have hc : best (bruteCands arr) ∈ (pairsLex arr.length).map (candVal arr) := hbm
      rw [List.mem_map] at hc
      obtain ⟨p, hp, hcv⟩ := hc
      rw [mem_pairsLex] at hp
      have hle := prodSeg_le_bestFast arr p.1 p.2 hp.1 hp.2
      rw [hMf] at hle
      rw [← hcv] at hbv
      simp only [candVal] at hbv
      omega
  · obtain ⟨k0, hk0n, hz, hk0v, hA, hk0min⟩ := best_fast_first arr hfm hfv
    have hfck0 : fastCand arr k0 = (prodSeg arr (runStart arr k0) k0, (runStart arr k0, k0)) := by
      unfold fastCand
      rw [if_neg hz]
    have hB : best (bruteCands arr) = fastCand arr k0 := by
      obtain ⟨P1, P2, hdec, hP1, hP2⟩ :=
        pairsLex_decomp arr.length (runStart arr k0) k0 (runStart_le_self arr k0) hk0n
      have hsplit : bruteCands arr = P1.map (candVal arr) ++ fastCand arr k0 ::
          P2.map (candVal arr) := by
        unfold bruteCands
        rw [hdec, List.map_append, List.map_cons]
        rw [show candVal arr (runStart arr k0, k0) = fastCand arr k0 by
          rw [hfck0]; rfl]
      rw [hsplit]
      refine best_append _ _ _ ?_ ?_ ?_
      · intro d hd
        rw [List.mem_map] at hd
        obtain ⟨p, hp, rfl⟩ := hd
        obtain ⟨hlex, hp1, hp2⟩ := hP1 p hp
        show (candVal arr p).1 < (fastCand arr k0).1
        have hle : prodSeg arr p.1 p.2 ≤ (best (fastCands arr)).1 :=
          prodSeg_le_bestFast arr p.1 p.2 hp1 hp2
        have hval : (candVal arr p).1 = prodSeg arr p.1 p.2 := rfl
        rw [hval]
        rcases Nat.lt_or_ge (prodSeg arr p.1 p.2) ((fastCand arr k0).1) with h | h
        · exact h
        exfalso
        have heq : prodSeg arr p.1 p.2 = (best (fastCands arr)).1 := by omega
        obtain ⟨hle1, hle2⟩ := first_attain_le arr k0 hk0n hk0v hk0min hfv p hp1 hp2 heq
        rcases hlex with hlex | ⟨hlex1, hlex2⟩ <;> omega
      · intro d hd
        rw [List.mem_map] at hd
        obtain ⟨p, hp, rfl⟩ := hd
        obtain ⟨hp1, hp2⟩ := hP2 p hp
        show (candVal arr p).1 ≤ (fastCand arr k0).1
        have hle : prodSeg arr p.1 p.2 ≤ (best (fastCands arr)).1 :=
          prodSeg_le_bestFast arr p.1 p.2 hp1 hp2
        have hval : (candVal arr p).1 = prodSeg arr p.1 p.2 := rfl
        omega
      · omega
    rw [hA, hB]

/-- C1: for every non-empty sequence of unsigned integers (modelled with
exact arithmetic), max_prod_fast_int returns exactly the same index range
as both max_prod_brute_force and max_prod_brute_force_improved. -/
theorem C1_int_equivalence (arr : List ℕ) (h : arr ≠ []) :
    max_prod_fast_int arr = max_prod_brute_force arr ∧
    max_prod_fast_int arr = max_prod_brute_force_improved arr := by
  rw [fast_int_eq_best arr, brute_force_eq_best arr, improved_eq_best arr,
    best_fast_eq_best_brute arr]
  exact ⟨rfl, rfl⟩

/-- C1 witness: the equivalence instantiated at [0, 2, 3, 4], where all
three algorithms return (1, 3). -/
theorem C1_witness :
    ([0, 2, 3, 4] : List ℕ) ≠ [] ∧
    (max_prod_fast_int [0, 2, 3, 4] = max_prod_brute_force [0, 2, 3, 4] ∧
     max_prod_fast_int [0, 2, 3, 4] = max_prod_brute_force_improved [0, 2, 3, 4]) :=
  ⟨by decide, C1_int_equivalence [0, 2, 3, 4] (by decide)⟩

/-- C9: for every non-empty sequence of unsigned integers, the range
returned by max_prod_fast_int is a valid index range, its product is
maximal among all subrange products, and among subranges attaining that
maximal product it has the lowest start index (first-occurrence
tie-breaking under the strict > comparison). -/
theorem C9_tie_break (arr : List ℕ) (h : arr ≠ []) :
    ((max_prod_fast_int arr).1 ≤ (max_prod_fast_int arr).2 ∧
      (max_prod_fast_int arr).2 < arr.length) ∧
    (∀ i j, i ≤ j → j < arr.length →
      prodSeg arr i j ≤ prodSeg arr (max_prod_fast_int arr).1 (max_prod_fast_int arr).2) ∧
    (∀ i j, i ≤ j → j < arr.length →
      prodSeg arr i j = prodSeg arr (max_prod_fast_int arr).1 (max_prod_fast_int arr).2 →
      (max_prod_fast_int arr).1 ≤ i) := by
  have hn : 0 < arr.length := List.length_pos.mpr h
  rw [fast_int_eq_best arr]
  rcases best_init_or_mem (fastCands arr) with hf | ⟨hfm, hfv⟩
  · rw [hf]
    have hall : ∀ i j, i ≤ j → j < arr.length → prodSeg arr i j = 0 := by
      intro i j hij hjn
      have h2 := prodSeg_le_bestFast arr i j hij hjn
      rw [hf] at h2
      simpa using h2
    refine ⟨⟨le_rfl, hn⟩, ?_, ?_⟩
    · intro i j hij hjn
      rw [hall i j hij hjn]
      exact Nat.zero_le _
    · intro i j _ _ _
      exact Nat.zero_le i
  · obtain ⟨k0, hk0n, hz, hk0v, hA, hk0min⟩ := best_fast_first arr hfm hfv
    have hfck0 : fastCand arr k0 = (prodSeg arr (runStart arr k0) k0, (runStart arr k0, k0)) := by
      unfold fastCand
      rw [if_neg hz]
    rw [hA, hfck0]
    dsimp only
    refine ⟨⟨runStart_le_self arr k0, hk0n⟩, ?_, ?_⟩
    · intro i j hij hjn
      have h1 := prodSeg_le_bestFast arr i j hij hjn
      rw [← hk0v, hfck0] at h1
      exact h1
    · intro i j hij hjn heq
      have heq2 : prodSeg arr i j = (best (fastCands arr)).1 := by
        rw [← hk0v, hfck0]
        exact heq
      exact (first_attain_le arr k0 hk0n hk0v hk0min hfv (i, j) hij hjn heq2).1

/-- C9 witness: the tie-break property instantiated at [0, 2, 3, 4]. -/
theorem C9_witness :
    ([0, 2, 3, 4] : List ℕ) ≠ [] ∧
    ((((max_prod_fast_int [0, 2, 3, 4]).1 ≤ (max_prod_fast_int [0, 2, 3, 4]).2 ∧
      (max_prod_fast_int [0, 2, 3, 4]).2 < ([0, 2, 3, 4] : List ℕ).length) ∧
    (∀ i j, i ≤ j → j < ([0, 2, 3, 4] : List ℕ).length →
      prodSeg [0, 2, 3, 4] i j ≤
        prodSeg [0, 2, 3, 4] (max_prod_fast_int [0, 2, 3, 4]).1 (max_prod_fast_int [0, 2, 3, 4]).2) ∧
    (∀ i j, i ≤ j → j < ([0, 2, 3, 4] : List ℕ).length →
      prodSeg [0, 2, 3, 4] i j =
        prodSeg [0, 2, 3, 4] (max_prod_fast_int [0, 2, 3, 4]).1 (max_prod_fast_int [0, 2, 3, 4]).2 →
      (max_prod_fast_int [0, 2, 3, 4]).1 ≤ i))) :=
  ⟨by decide, C9_tie_break [0, 2, 3, 4] (by decide)⟩

/-- C8: throughout the scan of max_prod_fast_int, whenever current_prod is
non-zero it equals the product of the elements from current.0 to current.1
inclusive and that subrange contains no zero element (so no computed
product ever spans a zero); and after reading a zero at position m-1 the
current run is (m-1, m-1) with product zero. -/
theorem C8_loop_invariant (arr : List ℕ) (m : ℕ) (hm : m ≤ arr.length) :
    ((fastIntScan arr m).2.2 ≠ 0 →
      (fastIntScan arr m).2.2 =
        prodSeg arr (fastIntScan arr m).2.1.1 (fastIntScan arr m).2.1.2 ∧
      (fastIntScan arr m).2.1.1 ≤ (fastIntScan arr m).2.1.2 ∧
      (fastIntScan arr m).2.1.2 < arr.length ∧
      (∀ k, (fastIntScan arr m).2.1.1 ≤ k → k ≤ (fastIntScan arr m).2.1.2 →
        arr.getD k 0 ≠ 0)) ∧
    (0 < m → arr.getD (m - 1) 0 = 0 →
      (fastIntScan arr m).2.1 = (m - 1, m - 1) ∧ (fastIntScan arr m).2.2 = 0) := by
  rw [fastIntScan_spec arr m hm]
  dsimp only
  rcases Nat.eq_zero_or_pos m with rfl | hpos
  · refine ⟨fun h0 => absurd rfl h0, fun h1 _ => absurd h1 (by omega)⟩
  · by_cases hz : arr.getD (m - 1) 0 = 0
    · have hsp : scanPair arr m = ((m - 1, m - 1), 0) := by
        unfold scanPair
        rw [if_neg (by omega), if_pos hz]
      rw [hsp]
      exact ⟨fun h0 => absurd rfl h0, fun _ _ => ⟨rfl, rfl⟩⟩
    · have hsp : scanPair arr m =
          ((runStart arr (m - 1), m - 1), prodSeg arr (runStart arr (m - 1)) (m - 1)) := by
        unfold scanPair
        rw [if_neg (by omega), if_neg hz]
      rw [hsp]
      dsimp only
      refine ⟨fun _ => ⟨rfl, runStart_le_self arr (m - 1), by omega, ?_⟩,
        fun _ h1 => absurd h1 hz⟩
      intro k hk1 hk2
      rcases Nat.lt_or_ge k (m - 1) with h | h
      · exact runStart_zero_free arr (m - 1) k hk1 h
      · rw [show k = m - 1 by omega]
        exact hz

/-- C8 witness: the loop invariant instantiated for the full scan of
[2, 0, 3]. -/
theorem C8_witness :
    (3 : ℕ) ≤ ([2, 0, 3] : List ℕ).length ∧
    (((fastIntScan [2, 0, 3] 3).2.2 ≠ 0 →
      (fastIntScan [2, 0, 3] 3).2.2 =
        prodSeg [2, 0, 3] (fastIntScan [2, 0, 3] 3).2.1.1 (fastIntScan [2, 0, 3] 3).2.1.2 ∧
      (fastIntScan [2, 0, 3] 3).2.1.1 ≤ (fastIntScan [2, 0, 3] 3).2.1.2 ∧
      (fastIntScan [2, 0, 3] 3).2.1.2 < ([2, 0, 3] : List ℕ).length ∧
      (∀ k, (fastIntScan [2, 0, 3] 3).2.1.1 ≤ k → k ≤ (fastIntScan [2, 0, 3] 3).2.1.2 →
        ([2, 0, 3] : List ℕ).getD k 0 ≠ 0)) ∧
    (0 < 3 → ([2, 0, 3] : List ℕ).getD (3 - 1) 0 = 0 →
      (fastIntScan [2, 0, 3] 3).2.1 = (3 - 1, 3 - 1) ∧ (fastIntScan [2, 0, 3] 3).2.2 = 0)) :=
  ⟨by decide, C8_loop_invariant [2, 0, 3] 3 (by decide)⟩

-- ===== C7 development: compress_dual invariants =====

theorem wsub1_pos (i : ℕ) (h : 0 < i) : wsub1 i = i - 1 := by
  unfold wsub1
  rw [if_neg (by omega)]

theorem take_one_drop_prod (arr : List ℚ) (a : ℕ) (h : a < arr.length) :
    ((arr.drop a).take 1).prod = arr.getD a 0 := by
  rw [List.drop_eq_getElem_cons h, List.take_one]
  simp only [List.head?_cons, Option.toList_some, List.prod_cons, List.prod_nil, mul_one]
  exact (List.getD_eq_getElem arr 0 h).symm

theorem leadScan_spec (arr : List ℚ) : ∀ (fuel start : ℕ) (tm : ℚ) (ti : ℕ),
    arr.length ≤ fuel + start → start ≤ arr.length →
    ((tm = 0 ∧ ti = 0 ∧ ∀ k, k < start → arr.getD k 0 ≤ 0) ∨
      (ti < start ∧ tm = arr.getD ti 0 ∧ 0 < tm)) →
    start ≤ (leadScan arr fuel start tm ti).1 ∧
    (leadScan arr fuel start tm ti).1 ≤ arr.length ∧
    ((leadScan arr fuel start tm ti).1 < arr.length →
      ¬ arr.getD (leadScan arr fuel start tm ti).1 0 < 1) ∧
    (∀ k, start ≤ k → k < (leadScan arr fuel start tm ti).1 → arr.getD k 0 < 1) ∧
    (((leadScan arr fuel start tm ti).2.1 = 0 ∧ (leadScan arr fuel start tm ti).2.2 = 0 ∧
        ∀ k, k < (leadScan arr fuel start tm ti).1 → arr.getD k 0 ≤ 0) ∨
      ((leadScan arr fuel start tm ti).2.2 < (leadScan arr fuel start tm ti).1 ∧
        (leadScan arr fuel start tm ti).2.1 =
          arr.getD (leadScan arr fuel start tm ti).2.2 0 ∧
        0 < (leadScan arr fuel start tm ti).2.1))
  | 0, start, tm, ti, hfs, hsn, hinv => by
    have hs : start = arr.length := by omega
    unfold leadScan
    refine ⟨le_rfl, hsn, fun h => absurd h (by omega), fun k h1 h2 => absurd h2 (by omega), ?_⟩
    rcases hinv with ⟨h1, h2, h3⟩ | ⟨h1, h2, h3⟩
    · exact Or.inl ⟨h1, h2, h3⟩
    · exact Or.inr ⟨h1, h2, h3⟩
  | fuel + 1, start, tm, ti, hfs, hsn, hinv => by
    unfold leadScan
    by_cases hc : start < arr.length ∧ arr.getD start 0 < 1
    · rw [if_pos hc]
      by_cases htm : tm < arr.getD start 0
      · rw [if_pos htm]
        have hrec := leadScan_spec arr fuel (start + 1) (arr.getD start 0) start
          (by omega) (by omega)
          (Or.inr ⟨by omega, rfl, by
            rcases hinv with ⟨h1, -, -⟩ | ⟨-, -, h3⟩
            · rw [h1] at htm; exact htm
            · exact h3.trans htm⟩)
        obtain ⟨g1, g2, g3, g4, g5⟩ := hrec
        refine ⟨by omega, g2, g3, ?_, g5⟩
        intro k hk1 hk2
        rcases Nat.lt_or_ge k (start + 1) with h | h
        · rw [show k = start by omega]
          exact hc.2
        · exact g4 k h hk2
      · rw [if_neg htm]
        have hrec := leadScan_spec arr fuel (start + 1) tm ti (by omega) (by omega)
          (by
            rcases hinv with ⟨h1, h2, h3⟩ | ⟨h1, h2, h3⟩
            · refine Or.inl ⟨h1, h2, fun k hk => ?_⟩
              rcases Nat.lt_or_ge k start with h | h
              · exact h3 k h
              · have h4 := not_lt.mp htm
                rw [h1] at h4
                rw [show k = start by omega]
                exact h4
            · exact Or.inr ⟨by omega, h2, h3⟩)
        obtain ⟨g1, g2, g3, g4, g5⟩ := hrec
        refine ⟨by omega, g2, g3, ?_, g5⟩
        intro k hk1 hk2
        rcases Nat.lt_or_ge k (start + 1) with h | h
        · rw [show k = start by omega]
          exact hc.2
        · exact g4 k h hk2
    · rw [if_neg hc]
      push_neg at hc
      refine ⟨le_rfl, hsn, fun h => not_lt.mpr (hc h), fun k h1 h2 => absurd h2 (by omega), ?_⟩
      rcases hinv with ⟨h1, h2, h3⟩ | ⟨h1, h2, h3⟩
      · exact Or.inl ⟨h1, h2, h3⟩
      · exact Or.inr ⟨h1, h2, h3⟩

theorem compress_fold_exact (arr : List ℚ) (s0 : ℕ) (hs0n : s0 < arr.length)
    (hgt : 1 < arr.getD s0 0) :
    ∀ (len a : ℕ) (compressed : List (ℚ × ℕ × ℕ)) (smaller : Bool) (tmp : ℚ) (start : ℕ),
      s0 ≤ a → a + len ≤ arr.length →
      (∀ r ∈ compressed, RunExact arr r) →
      tmp = ((arr.drop start).take (a - start)).prod →
      s0 ≤ start → start < arr.length → start ≤ a →
      (a = s0 → smaller = false ∧ start = s0) →
      (a ≠ s0 → start < a) →
      (∀ r ∈ ((List.range' a len).foldl (compressStep arr) (compressed, smaller, tmp, start)).1,
        RunExact arr r) ∧
      ((List.range' a len).foldl (compressStep arr) (compressed, smaller, tmp, start)).2.2.1 =
        ((arr.drop ((List.range' a len).foldl (compressStep arr)
          (compressed, smaller, tmp, start)).2.2.2).take
          ((a + len) - ((List.range' a len).foldl (compressStep arr)
            (compressed, smaller, tmp, start)).2.2.2)).prod ∧
      s0 ≤ ((List.range' a len).foldl (compressStep arr)
        (compressed, smaller, tmp, start)).2.2.2 ∧
      ((List.range' a len).foldl (compressStep arr)
        (compressed, smaller, tmp, start)).2.2.2 < arr.length ∧
      ((List.range' a len).foldl (compressStep arr)
        (compressed, smaller, tmp, start)).2.2.2 ≤ a + len
  | 0, a, compressed, smaller, tmp, start, ha, hlen, hre, htmp, h1, h2, h3, _, _ => by
    exact ⟨hre, htmp, h1, h2, h3⟩
  | len + 1, a, compressed, smaller, tmp, start, ha, hlen, hre, htmp, h1, h2, h3, hs0case, hgtcase => by
    rw [List.range'_succ, List.foldl_cons]
    have han : a < arr.length := by omega
    -- analyze one step
    have hstep : ∃ (c2 : List (ℚ × ℕ × ℕ)) (sm2 : Bool) (t2 : ℚ) (st2 : ℕ),
        compressStep arr (compressed, smaller, tmp, start) a = (c2, sm2, t2, st2) ∧
        (∀ r ∈ c2, RunExact arr r) ∧
        t2 = ((arr.drop st2).take (a + 1 - st2)).prod ∧
        s0 ≤ st2 ∧ st2 < arr.length ∧ st2 < a + 1 := by
      have habsorb : tmp * arr.getD a 0 = ((arr.drop start).take (a + 1 - start)).prod := by
        rw [htmp, show a + 1 - start = (a - start) + 1 by omega,
          take_drop_prod_concat arr start (a - start) (by rw [show start + (a - start) = a by omega]; exact han),
          show start + (a - start) = a by omega]
      have hpushRE : a ≠ s0 → RunExact arr (tmp, start, wsub1 a) := by
        intro hne
        have hsa : start < a := hgtcase hne
        have ha1 : 0 < a := by omega
        unfold RunExact
        rw [wsub1_pos a ha1]
        dsimp only
        refine ⟨by omega, by omega, ?_⟩
        rw [htmp, prodSeg, show (a - 1) + 1 - start = a - start by omega]
      have hseed : arr.getD a 0 = ((arr.drop a).take (a + 1 - a)).prod := by
        rw [show a + 1 - a = 1 by omega, take_one_drop_prod arr a han]
      cases smaller with
      | false =>
        by_cases hcmp : 1 < arr.getD a 0
        · refine ⟨compressed, false, tmp * arr.getD a 0, start,
            by simp only [compressStep]; rw [if_neg (by simp), if_pos hcmp], hre, habsorb, h1, h2, by omega⟩
        · -- push; a = s0 impossible
          rcases eq_or_ne a s0 with rfl | hne
          · exact absurd hgt hcmp
          · refine ⟨compressed ++ [(tmp, start, wsub1 a)], true, arr.getD a 0, a,
              by simp only [compressStep]; rw [if_neg (by simp), if_neg hcmp], ?_, hseed, by omega, han, by omega⟩
            intro r hr
            rcases List.mem_append.mp hr with hr | hr
            · exact hre r hr
            · rw [List.mem_singleton.mp hr]
              exact hpushRE hne
      | true =>
        have hne : a ≠ s0 := by
          intro heq
          have := (hs0case heq).1
          simp at this
        by_cases hcmp : arr.getD a 0 < 1
        · refine ⟨compressed, true, tmp * arr.getD a 0, start,
            by simp only [compressStep, if_true]; rw [if_pos hcmp], hre, habsorb, h1, h2, by omega⟩
        · refine ⟨compressed ++ [(tmp, start, wsub1 a)], false, arr.getD a 0, a,
            by simp only [compressStep, if_true]; rw [if_neg hcmp], ?_, hseed, by omega, han, by omega⟩
          intro r hr
          rcases List.mem_append.mp hr with hr | hr
          · exact hre r hr
          · rw [List.mem_singleton.mp hr]
            exact hpushRE hne
    obtain ⟨c2, sm2, t2, st2, heq, g1, g2, g3, g4, g5⟩ := hstep
    rw [heq]
    have hrec := compress_fold_exact arr s0 hs0n hgt len (a + 1) c2 sm2 t2 st2
      (by omega) (by omega) g1 g2 g3 g4 (by omega)
      (fun h => absurd h (by omega)) (fun _ => g5)
    rw [show a + 1 + len = a + (len + 1) by omega] at hrec
    exact hrec

theorem compressStep_ne (arr : List ℚ) (st : List (ℚ × ℕ × ℕ) × Bool × ℚ × ℕ) (i : ℕ)
    (h : st.1 ≠ []) : (compressStep arr st i).1 ≠ [] := by
  obtain ⟨compressed, smaller, tmp, start⟩ := st
  simp only [compressStep]
  cases smaller with
  | false =>
    rw [if_neg (by simp)]
    split
    · exact h
    · simp
  | true =>
    rw [if_pos rfl]
    split
    · exact h
    · simp

theorem foldl_compressStep_ne (arr : List ℚ) :
    ∀ (l : List ℕ) (st : List (ℚ × ℕ × ℕ) × Bool × ℚ × ℕ), st.1 ≠ [] →
      (l.foldl (compressStep arr) st).1 ≠ []
  | [], _, h => h
  | i :: l, st, h => by
    rw [List.foldl_cons]
    exact foldl_compressStep_ne arr l _ (compressStep_ne arr st i h)

theorem slice_prod_one_lt (arr : List ℚ) :
    ∀ (len s : ℕ), 0 < len → s + len ≤ arr.length →
      (∀ k, s ≤ k → k < s + len → 1 < arr.getD k 0) →
      1 < ((arr.drop s).take len).prod
  | 0, s, h0, _, _ => absurd h0 (by omega)
  | len + 1, s, _, hlen, hel => by
    rcases Nat.eq_zero_or_pos len with rfl | hpos
    · rw [take_one_drop_prod arr s (by omega)]
      exact hel s le_rfl (by omega)
    · rw [take_drop_prod_concat arr s len (by omega)]
      have h1 := slice_prod_one_lt arr len s hpos (by omega)
        (fun k hk1 hk2 => hel k hk1 (by omega))
      have h2 := hel (s + len) (by omega) (by omega)
      nlinarith

theorem compress_fold_ne (arr : List ℚ) (s0 : ℕ) :
    ∀ (len a : ℕ) (compressed : List (ℚ × ℕ × ℕ)) (smaller : Bool) (tmp : ℚ) (start : ℕ),
      a + len ≤ arr.length →
      (compressed = [] → smaller = false ∧ start = s0 ∧
        tmp = ((arr.drop s0).take (a - s0)).prod ∧ s0 ≤ a ∧
        (∀ k, s0 ≤ k → k < a → 1 < arr.getD k 0)) →
      (((List.range' a len).foldl (compressStep arr) (compressed, smaller, tmp, start)).1 = [] →
        ((List.range' a len).foldl (compressStep arr) (compressed, smaller, tmp, start)).2.1 = false ∧
        ((List.range' a len).foldl (compressStep arr) (compressed, smaller, tmp, start)).2.2.2 = s0 ∧
        ((List.range' a len).foldl (compressStep arr) (compressed, smaller, tmp, start)).2.2.1 =
          ((arr.drop s0).take (a + len - s0)).prod ∧ s0 ≤ a + len ∧
        (∀ k, s0 ≤ k → k < a + len → 1 < arr.getD k 0))
  | 0, a, compressed, smaller, tmp, start, hlen, hinv => by
    simp only [List.range'_zero, List.foldl_nil]
    intro hfin
    have h2 := hinv hfin
    rw [Nat.add_zero]
    exact h2
  | len + 1, a, compressed, smaller, tmp, start, hlen, hinv => by
    rw [List.range'_succ, List.foldl_cons]
    by_cases hc : compressed = []
    · obtain ⟨i1, i2, i3, i4, i5⟩ := hinv hc
      have hstate : (compressed, smaller, tmp, start) =
          (compressed, false, ((arr.drop s0).take (a - s0)).prod, s0) := by
        rw [i1, i2, i3]
      rw [hstate]
      have han : a < arr.length := by omega
      by_cases hcmp : 1 < arr.getD a 0
      · have hstep : compressStep arr (compressed, false, ((arr.drop s0).take (a - s0)).prod, s0) a =
            (compressed, false, ((arr.drop s0).take (a - s0)).prod * arr.getD a 0, s0) := by
          simp only [compressStep]
          rw [if_neg (by simp), if_pos hcmp]
        rw [hstep]
        have hrec := compress_fold_ne arr s0 len (a + 1) compressed false
          (((arr.drop s0).take (a - s0)).prod * arr.getD a 0) s0 (by omega)
          (fun _ => ⟨rfl, rfl, by
            rw [show a + 1 - s0 = (a - s0) + 1 by omega,
              take_drop_prod_concat arr s0 (a - s0)
                (by rw [show s0 + (a - s0) = a by omega]; exact han),
              show s0 + (a - s0) = a by omega], by omega, fun k hk1 hk2 => by
            rcases Nat.lt_or_ge k a with h | h
            · exact i5 k hk1 h
            · rw [show k = a by omega]
              exact hcmp⟩)
        rw [show a + 1 + len = a + (len + 1) by omega] at hrec
        exact hrec
      · have hstep : compressStep arr (compressed, false, ((arr.drop s0).take (a - s0)).prod, s0) a =
            (compressed ++ [(((arr.drop s0).take (a - s0)).prod, s0, wsub1 a)], true,
              arr.getD a 0, a) := by
          simp only [compressStep]
          rw [if_neg (by simp), if_neg hcmp]
        rw [hstep]
        intro hfin
        exact absurd hfin (foldl_compressStep_ne arr _ _ (by simp))
    · intro hfin
      exact absurd hfin (foldl_compressStep_ne arr _ _ (compressStep_ne arr _ a hc))

theorem compress_dual_ne (arr : List ℚ) : compress_dual arr ≠ [] := by
  unfold compress_dual
  by_cases hdeg : (leadScan arr arr.length 0 0 0).1 = arr.length
  · rw [if_pos hdeg]
    simp
  · rw [if_neg hdeg]
    have hls := leadScan_spec arr arr.length 0 0 0 (by omega) (by omega)
      (Or.inl ⟨rfl, rfl, fun k hk => absurd hk (by omega)⟩)
    obtain ⟨g1, g2, g3, g4, g5⟩ := hls
    have hs0n : (leadScan arr arr.length 0 0 0).1 < arr.length := by omega
    have hsm : (decide (arr.getD (leadScan arr arr.length 0 0 0).1 0 < 1)) = false :=
      decide_eq_false (g3 hs0n)
    have hfold := compress_fold_ne arr (leadScan arr arr.length 0 0 0).1
      (arr.length - (leadScan arr arr.length 0 0 0).1) (leadScan arr arr.length 0 0 0).1
      [] (decide (arr.getD (leadScan arr arr.length 0 0 0).1 0 < 1)) 1
      (leadScan arr arr.length 0 0 0).1 (by omega)
      (fun _ => ⟨hsm, rfl, by simp, le_rfl, fun k hk1 hk2 => absurd hk2 (by omega)⟩)
    dsimp only
    split
    · simp
    · next hcond =>
        intro hempty
        obtain ⟨i1, i2, i3, i4, i5⟩ := hfold hempty
        have hlt := slice_prod_one_lt arr
          ((leadScan arr arr.length 0 0 0).1 +
            (arr.length - (leadScan arr arr.length 0 0 0).1) - (leadScan arr arr.length 0 0 0).1)
          (leadScan arr arr.length 0 0 0).1 (by omega) (by omega)
          (fun k hk1 hk2 => i5 k hk1 (by omega))
        rw [← i3] at hlt
        exact hcond hlt

theorem compress_dual_exact (arr : List ℚ) (hne : arr ≠ []) (hnn : ∀ x ∈ arr, 0 ≤ x)
    (hfirst : ∀ i, i < arr.length → (∀ k, k < i → arr.getD k 0 < 1) →
      1 ≤ arr.getD i 0 → arr.getD i 0 ≠ 1) :
    ∀ r ∈ compress_dual arr, RunExact arr r := by
  have hn : 0 < arr.length := List.length_pos.mpr hne
  unfold compress_dual
  have hls := leadScan_spec arr arr.length 0 0 0 (by omega) (by omega)
    (Or.inl ⟨rfl, rfl, fun k hk => absurd hk (by omega)⟩)
  obtain ⟨g1, g2, g3, g4, g5⟩ := hls
  by_cases hdeg : (leadScan arr arr.length 0 0 0).1 = arr.length
  · rw [if_pos hdeg]
    intro r hr
    rw [List.mem_singleton.mp hr]
    rcases g5 with ⟨e1, e2, e3⟩ | ⟨e1, e2, e3⟩
    · unfold RunExact
      rw [e1, e2]
      dsimp only
      refine ⟨le_rfl, hn, ?_⟩
      rw [prodSeg_single arr 0 hn]
      have ha0 : arr.getD 0 0 ≤ 0 := e3 0 (by omega)
      have hb0 : 0 ≤ arr.getD 0 0 := by
        rw [List.getD_eq_getElem arr 0 hn]
        exact hnn _ (arr.getElem_mem hn)
      linarith
    · unfold RunExact
      dsimp only
      refine ⟨le_rfl, by omega, ?_⟩
      rw [prodSeg_single arr _ (by omega)]
      exact e2
  · rw [if_neg hdeg]
    have hs0n : (leadScan arr arr.length 0 0 0).1 < arr.length := by omega
    have hgt : 1 < arr.getD (leadScan arr arr.length 0 0 0).1 0 := by
      have hge := not_lt.mp (g3 hs0n)
      exact lt_of_le_of_ne hge
        (Ne.symm (hfirst _ hs0n (fun k hk => g4 k (by omega) hk) hge))
    have hsm : decide (arr.getD (leadScan arr arr.length 0 0 0).1 0 < 1) = false :=
      decide_eq_false (g3 hs0n)
    have hfold := compress_fold_exact arr (leadScan arr arr.length 0 0 0).1 hs0n hgt
      (arr.length - (leadScan arr arr.length 0 0 0).1) (leadScan arr arr.length 0 0 0).1
      [] (decide (arr.getD (leadScan arr arr.length 0 0 0).1 0 < 1)) 1
      (leadScan arr arr.length 0 0 0).1
      le_rfl (by omega) (by simp) (by simp) le_rfl hs0n le_rfl
      (fun _ => ⟨hsm, rfl⟩) (fun h => absurd rfl h)
    obtain ⟨f1, f2, f3, f4, f5⟩ := hfold
    dsimp only
    split
    · intro r hr
      rcases List.mem_append.mp hr with hr | hr
      · exact f1 r hr
      · rw [List.mem_singleton.mp hr]
        unfold RunExact
        dsimp only
        refine ⟨by omega, by omega, ?_⟩
        rw [f2, prodSeg]
        congr 2
        omega
    · exact f1

/-- C7 amended: for every non-empty sequence of non-negative reals the
list returned by compress_dual is non-empty; and provided the first
at-or-above-one element of the sequence (the one the leading scan stops
at, i.e. any element at-or-above one that is preceded only by below-one
elements) is not exactly one, every returned run spans a valid index range
whose stored product is the exact product of its constituent elements.
The counterexample shows exactly this failure mode: when the first
at-or-above-one element equals one, the run closing it executes i - 1 at
the position where the main loop starts and produces an out-of-range span.
Elements equal to one elsewhere in the sequence are harmless for this
invariant. -/
theorem C7_compress_runs (arr : List ℚ) (hne : arr ≠ []) (hnn : ∀ x ∈ arr, 0 ≤ x) :
    compress_dual arr ≠ [] ∧
    ((∀ i, i < arr.length → (∀ k, k < i → arr.getD k 0 < 1) →
        1 ≤ arr.getD i 0 → arr.getD i 0 ≠ 1) →
      ∀ r ∈ compress_dual arr, RunExact arr r) :=
  ⟨compress_dual_ne arr, fun hfirst => compress_dual_exact arr hne hnn hfirst⟩

/-- C7 witness: the amended invariant instantiated at [2, 1, 1/2, 3],
which contains an element exactly equal to one (at index 1) but whose
first at-or-above-one element is 2, with every hypothesis discharged. -/
theorem C7_witness :
    (([2, 1, 1/2, 3] : List ℚ) ≠ [] ∧ (∀ x ∈ ([2, 1, 1/2, 3] : List ℚ), 0 ≤ x)) ∧
    (compress_dual ([2, 1, 1/2, 3] : List ℚ) ≠ [] ∧
      ∀ r ∈ compress_dual ([2, 1, 1/2, 3] : List ℚ), RunExact [2, 1, 1/2, 3] r) :=
  ⟨⟨by simp, by norm_num⟩, by
    obtain ⟨h1, h2⟩ := C7_compress_runs [2, 1, 1/2, 3] (by simp) (by norm_num)
    refine ⟨h1, h2 ?_⟩
    intro i hi hbelow hge
    have hi4 : i < 4 := by simpa using hi
    interval_cases i
    · norm_num
    · exact absurd (hbelow 0 (by norm_num)) (by norm_num)
    · norm_num
    · norm_num⟩
